import Mathlib

/-!
Verification of the in-memory manifest engine of `blobrepo/src/memory_manifest.rs`
(`MemoryManifestEntry` / `MemoryRootManifest`): a copy-on-write directory tree that
is lazily materialized from a content-addressed blob store, mutated by path-addressed
changes, three-way merged with conflict tracking, and saved back to the store.

The Rust code is asynchronous and shares overlay state through `Arc<Mutex<...>>`;
the embedding is a pure functional rendition: the blob store is threaded explicitly
as a value, the shared `changes` maps become sorted association lists (the ordering
and semantics of `BTreeMap`), and the recursion that travels through the store
(`save`, `is_empty`, `merge_with_conflicts`) is step-indexed by explicit fuel,
consumed one unit per recursive call.
-/

namespace MemoryManifest

/-- A mercurial node hash (`HgNodeHash`), abstracted to a natural number. -/
abbrev Hash := Nat

/-- A path element (`MPathElement`): a byte string. -/
abbrev Name := List Nat

/-- A `RepoPath`: the empty list is the root, otherwise the list of components. -/
abbrev RPath := List Name

/-- Entry types (`mercurial_types::Type`): a tree or one of the non-tree file kinds. -/
inductive EType where
  | file
  | exec
  | symlink
  | tree
deriving DecidableEq, Repr

/-- An `HgBlobEntry`: a reference to already-persisted content, carrying the
basename (absent for a root entry), the node hash and the entry type. -/
structure BlobInfo where
  basename : Option Name
  hash : Hash
  etype : EType
deriving DecidableEq, Repr

/-- The error taxonomy of `blobrepo::errors::ErrorKind` used by the manifest engine,
plus `OutOfFuel`, an artifact of the step-indexed embedding that never corresponds
to a behaviour of the code (theorems always supply sufficient fuel). -/
inductive Err where
  | UnresolvedConflicts
  | UnchangedManifest
  | ManifestMissing (h : Hash)
  | ManifestAlreadyAMerge (p1 p2 : Hash)
  | NotADirectory
  | PathNotFound (p : List Name)
  | OutOfFuel
deriving DecidableEq, Repr

/-- `MemoryManifestEntry`: a persisted blob reference, an unresolved conflict
(ordered: first entry is p1's version, second p2's), or an in-memory tree node
with an optional baseline manifest id, up to two parents, and a change map
(`BTreeMap<MPathElement, Option<MemoryManifestEntry>>`, rendered as a
name-sorted association list; `none` records a deletion relative to baseline). -/
inductive Entry where
  | Blob (b : BlobInfo)
  | Conflict (cs : List Entry)
  | MemTree (base : Option Hash) (p1 : Option Hash) (p2 : Option Hash)
      (changes : List (Name × Option Entry))

/-- Strict lexicographic byte-string order: the ordering of `MPathElement`
(`Vec<u8>` in Rust), which is the key order of the `BTreeMap` of changes. -/
def nameLt : Name → Name → Bool
  | [], [] => false
  | [], _ :: _ => true
  | _ :: _, [] => false
  | a :: as, b :: bs => if a < b then true else if b < a then false else nameLt as bs

/-- Lookup in an association list rendering of a `BTreeMap`. -/
def mapLookup (k : Name) : List (Name × α) → Option α
  | [] => none
  | (k', v) :: rest => if k = k' then some v else mapLookup k rest

/-- `BTreeMap::contains_key`. -/
def mapContains (k : Name) (m : List (Name × α)) : Bool :=
  (mapLookup k m).isSome

/-- `BTreeMap::insert` on a name-sorted association list. -/
def mapInsert (k : Name) (v : α) : List (Name × α) → List (Name × α)
  | [] => [(k, v)]
  | (k', v') :: rest =>
    if nameLt k k' then (k, v) :: (k', v') :: rest
    else if k = k' then (k, v) :: rest
    else (k', v') :: mapInsert k v rest

/-- `BTreeMap::remove` on a name-sorted association list. -/
def mapRemove (k : Name) : List (Name × α) → List (Name × α)
  | [] => []
  | (k', v') :: rest => if k = k' then rest else (k', v') :: mapRemove k rest

/-- `MemoryManifestEntry::empty_tree`: no baseline, no parents, no changes. -/
def emptyTree : Entry := .MemTree none none none []

/-- `MemoryManifestEntry::convert_treenode`: an unmodified tree over a persisted
manifest, with `p1` recording where it came from. -/
def convertTreenode (manifestId : Hash) : Entry :=
  .MemTree (some manifestId) (some manifestId) none []

/-- `MemoryManifestEntry::is_modified`: true iff the entry is a `MemTree` that has
no baseline or a non-empty change map. -/
def isModified : Entry → Bool
  | .MemTree base _ _ changes => base.isNone || !changes.isEmpty
  | _ => false

/-- The decoded listing of a persisted tree node (external `BlobManifest` contract):
the (name, hash, type) rows of one manifest level. -/
abbrev Listing := List (Name × Hash × EType)

/-- The content-addressed blob store, exposed at the decoded-listing level. -/
abbrev Store := List (Hash × Listing)

/-- Load a persisted tree listing (`BlobManifest::load`). -/
def storeGet (s : Store) (h : Hash) : Option Listing :=
  match s with
  | [] => none
  | (h', l) :: rest => if h = h' then some l else storeGet rest h

/-- Record a freshly uploaded tree node under its hash. -/
def storeInsert (s : Store) (h : Hash) (l : Listing) : Store :=
  (h, l) :: s

/-- `Manifest::lookup`: find one named row of a decoded listing. -/
def listingLookup (l : Listing) (k : Name) : Option (Hash × EType) :=
  match l with
  | [] => none
  | (n, h, t) :: rest => if k = n then some (h, t) else listingLookup rest k

/-- Modelled from the spec: the ASCII code of one lowercase hex digit, part of the
external `Display` of `HgNodeHash` ("hex-hash" of the wire format, §6). -/
def hexDigit (n : Nat) : Nat :=
  if n < 10 then 48 + n else 87 + n

/-- Modelled from the spec: the 40-character lowercase hex rendering of a node hash,
as written by `write!("{}", entry.get_hash())` via the external `Display` impl. -/
def hexOfHash (h : Hash) : List Nat :=
  (List.range 40).map (fun i => hexDigit (h / 16 ^ (39 - i) % 16))

/-- Modelled from the spec: the "type-char" of the wire format (§6), the external
`Display` of `mercurial_types::Type` written after the hex hash. -/
def typeChar : EType → Nat
  | .tree => 116
  | .exec => 120
  | .symlink => 108
  | .file => 102

/-- The serialization loop of `save` (memory_manifest.rs lines 213-223): for each
entry, append the name bytes, a NUL, the hex hash, the type char and a newline.
No header, no count, no trailer. -/
def serializeListing (l : Listing) : List Nat :=
  l.foldl (fun acc q => acc ++ q.1 ++ [0] ++ hexOfHash q.2.1 ++ [typeChar q.2.2] ++ [10]) []

/-- Modelled from the spec: the content-addressed `put` of the blob store
(§6: `put(bytes) -> hash`, same bytes imply the same hash), which is how
`UploadHgNodeHash::Generate` assigns the node id of an uploaded manifest. -/
def hashBytes (bytes : List Nat) : Hash :=
  bytes.foldl (fun a b => a * 257 + b + 1) 7

/-- `MemoryManifestEntry::apply_changes`: replay the change map over a baseline
child map — `none` removes the name, `some` inserts/overwrites it. -/
def applyChanges (changes : List (Name × Option Entry)) (children : List (Name × Entry)) :
    List (Name × Entry) :=
  changes.foldl
    (fun m p =>
      match p.2 with
      | none => mapRemove p.1 m
      | some e => mapInsert p.1 e m)
    children

/-- `MemoryManifestEntry::get_new_children`: materialize the full current child map
of a tree node — load the baseline listing (failing with `ManifestMissing` if the
hash does not resolve), convert each row (trees become unmodified `MemTree`s over
that hash, the rest become `Blob`s), then replay the changes; a non-tree entry has
no children. -/
def getNewChildren (store : Store) (e : Entry) : Except Err (List (Name × Entry)) :=
  match e with
  | .MemTree base _ _ changes =>
    match base with
    | some h =>
      match storeGet store h with
      | none => .error (.ManifestMissing h)
      | some listing =>
        let children := listing.foldl
          (fun m q =>
            mapInsert q.1
              (if q.2.2 = .tree then convertTreenode q.2.1
               else .Blob ⟨some q.1, q.2.1, q.2.2⟩)
              m)
          []
        .ok (applyChanges changes children)
    | none => .ok (applyChanges changes [])
  | _ => .ok []

mutual

/-- `MemoryManifestEntry::is_empty`: a tree is empty iff all of its materialized
children are recursively empty; a `Blob` or a `Conflict` is never empty.
Step-indexed: one unit of fuel per recursive call. -/
def isEmpty (fuel : Nat) (store : Store) (e : Entry) : Except Err Bool :=
  match fuel with
  | 0 => .error .OutOfFuel
  | fuel + 1 =>
    match e with
    | .MemTree base p1 p2 changes =>
      match getNewChildren store (.MemTree base p1 p2 changes) with
      | .error err => .error err
      | .ok children => isEmptyList fuel store children
    | _ => .ok false

/-- The `join_all` / `all` loop of `is_empty` over the child map. -/
def isEmptyList (fuel : Nat) (store : Store) (children : List (Name × Entry)) :
    Except Err Bool :=
  match fuel with
  | 0 => .error .OutOfFuel
  | fuel + 1 =>
    match children with
    | [] => .ok true
    | (_, c) :: rest =>
      match isEmpty fuel store c with
      | .error err => .error err
      | .ok b =>
        match isEmptyList fuel store rest with
        | .error err => .error err
        | .ok bs => .ok (b && bs)

end

mutual

/-- `MemoryManifestEntry::save`: a `Blob` is returned as-is (no write); a `Conflict`
fails with `UnresolvedConflicts`; a modified tree materializes its children, drops
the empty ones, saves the rest recursively, serializes the resulting rows and
uploads them (the new hash is content-addressed from the bytes); an unmodified
tree with `p2` set fails with `UnchangedManifest`, with no baseline fails with
`UnchangedManifest`, and otherwise is returned as a reference to its baseline
hash (named by the basename of the path, or as a root entry at the root). -/
def save (fuel : Nat) (store : Store) (e : Entry) (path : RPath) :
    Except Err (BlobInfo × Store) :=
  match fuel with
  | 0 => .error .OutOfFuel
  | fuel + 1 =>
    match e with
    | .Blob b => .ok (b, store)
    | .Conflict _ => .error .UnresolvedConflicts
    | .MemTree base p1 p2 changes =>
      if isModified (.MemTree base p1 p2 changes) then
        match getNewChildren store (.MemTree base p1 p2 changes) with
        | .error err => .error err
        | .ok children =>
          match saveChildren fuel store children path with
          | .error err => .error err
          | .ok (entries, store1) =>
            let listing : Listing := entries.map (fun q => (q.1, q.2.hash, q.2.etype))
            let h := hashBytes (serializeListing listing)
            .ok (⟨path.getLast?, h, .tree⟩, storeInsert store1 h listing)
      else
        if p2.isSome then .error .UnchangedManifest
        else
          match base with
          | none => .error .UnchangedManifest
          | some h => .ok (⟨path.getLast?, h, .tree⟩, store)

/-- The per-child loop of `save`: skip children that are recursively empty, save
the others at the extended path, and collect the (name, saved entry) rows in
order, threading the store through the writes. -/
def saveChildren (fuel : Nat) (store : Store) (children : List (Name × Entry))
    (path : RPath) : Except Err (List (Name × BlobInfo) × Store) :=
  match fuel with
  | 0 => .error .OutOfFuel
  | fuel + 1 =>
    match children with
    | [] => .ok ([], store)
    | (n, c) :: rest =>
      match isEmpty fuel store c with
      | .error err => .error err
      | .ok true => saveChildren fuel store rest path
      | .ok false =>
        match save fuel store c (path ++ [n]) with
        | .error err => .error err
        | .ok (b, store1) =>
          match saveChildren fuel store1 rest path with
          | .error err => .error err
          | .ok (bs, store2) => .ok ((n, b) :: bs, store2)

end

mutual

/-- `MemoryManifestEntry::merge_with_conflicts`: a modified side is first saved and
re-loaded as a clean baseline-only node; a `Conflict` on either side fails with
`UnresolvedConflicts`; two blobs merge to the first one if their hashes agree and
to a `Conflict [mine, theirs]` otherwise (the `==` on `HgBlobEntry` is external;
modelled from the spec: equal hash means the same leaf, §4.5 step 3); a blob
against a tree is a `Conflict`
in argument order; a side that already carries two parents fails with
`ManifestAlreadyAMerge`; two unmodified trees over the same baseline merge to the
first side unchanged; otherwise both child maps are materialized and merged
entry by entry. -/
def mergeWithConflicts (fuel : Nat) (store : Store) (self other : Entry)
    (path : RPath) : Except Err (Entry × Store) :=
  match fuel with
  | 0 => .error .OutOfFuel
  | fuel + 1 =>
    if isModified self then
      match save fuel store self path with
      | .error err => .error err
      | .ok (b, store1) => mergeWithConflicts fuel store1 (convertTreenode b.hash) other path
    else if isModified other then
      match save fuel store other path with
      | .error err => .error err
      | .ok (b, store1) => mergeWithConflicts fuel store1 self (convertTreenode b.hash) path
    else
      match self, other with
      | .Conflict _, _ => .error .UnresolvedConflicts
      | _, .Conflict _ => .error .UnresolvedConflicts
      | .Blob b1, .Blob b2 =>
        if b1.hash = b2.hash then .ok (.Blob b1, store)
        else .ok (.Conflict [.Blob b1, .Blob b2], store)
      | .Blob b1, o => .ok (.Conflict [.Blob b1, o], store)
      | s, .Blob b2 => .ok (.Conflict [s, .Blob b2], store)
      | .MemTree base1 q1 q2 ch1, .MemTree base2 r1 r2 ch2 =>
        match q1, q2, r1, r2 with
        | some a, some b, _, _ => .error (.ManifestAlreadyAMerge a b)
        | none, _, some a, some b => .error (.ManifestAlreadyAMerge a b)
        | _, none, some a, some b => .error (.ManifestAlreadyAMerge a b)
        | _, _, _, _ =>
          if base1.isSome ∧ base1 = base2 ∧ ch1.isEmpty ∧ ch2.isEmpty then
            .ok (.MemTree base1 q1 q2 ch1, store)
          else
            match getNewChildren store (.MemTree base1 q1 q2 ch1) with
            | .error err => .error err
            | .ok mine =>
              match getNewChildren store (.MemTree base2 r1 r2 ch2) with
              | .error err => .error err
              | .ok theirs => mergeChildren fuel store mine theirs [] path q1 r1

/-- The loop of `merge_trees`: walk the other side's children; a name present only
there is taken as-is, a name present on both sides is recursively merged at the
extended path; finally the merged rows extend the surviving children and the
result is a fresh two-parent tree whose change map holds every child. -/
def mergeChildren (fuel : Nat) (store : Store) (mine theirs : List (Name × Entry))
    (acc : List (Name × Entry)) (path : RPath) (p1 p2 : Option Hash) :
    Except Err (Entry × Store) :=
  match fuel with
  | 0 => .error .OutOfFuel
  | fuel + 1 =>
    match theirs with
    | [] =>
      let children :=
        acc.foldl (fun m q => mapInsert q.1 (some q.2) m)
          (mine.map (fun q => (q.1, some q.2)))
      .ok (.MemTree none p1 p2 children, store)
    | (n, te) :: rest =>
      match mapLookup n mine with
      | none => mergeChildren fuel store (mapInsert n te mine) rest acc path p1 p2
      | some me =>
        match mergeWithConflicts fuel store me te (path ++ [n]) with
        | .error err => .error err
        | .ok (merged, store1) =>
          mergeChildren fuel store1 (mapRemove n mine) rest (acc ++ [(n, merged)]) path p1 p2

end

/-- The candidate parents extracted by `conflict_to_memtree`: the baselines of the
unmodified trees among the conflicting entries, and the hashes of tree-typed
blobs; everything else is dropped. -/
def conflictCands : List Entry → List Hash
  | [] => []
  | .MemTree (some h) _ _ ch :: rest =>
    if ch.isEmpty then h :: conflictCands rest else conflictCands rest
  | .MemTree none _ _ _ :: rest => conflictCands rest
  | .Blob b :: rest =>
    if b.etype = .tree then b.hash :: conflictCands rest else conflictCands rest
  | .Conflict _ :: rest => conflictCands rest

/-- `MemoryManifestEntry::conflict_to_memtree`: a `Conflict` being descended into
is rewritten into a fresh tree whose two parents are the first two candidate
hashes; any other entry is left as it is. -/
def conflictToMemtree (e : Entry) : Entry :=
  match e with
  | .Conflict cs =>
    let cands := conflictCands cs
    .MemTree none cands[0]? cands[1]? []
  | _ => e

/-- `MemoryManifestEntry::find_mut`: walk down the given path, creating
intermediate trees on demand. At each level the next component is looked up in
the change map; if absent it is seeded with a single-row lookup against the
baseline listing (failing with `ManifestMissing` if the baseline hash does not
resolve); a marker of `none` or a missing entry becomes a fresh empty tree, and a
`Conflict` is coerced by `conflict_to_memtree`. Descending into a non-tree entry
with path remaining yields "not found". Returns the found node (a view through
the shared change maps, rendered here as a copy) together with the updated tree
reflecting every seeding and coercion done along the walk. -/
def findMut (store : Store) (e : Entry) : List Name → Except Err (Option Entry × Entry)
  | [] => .ok (some e, e)
  | el :: rest =>
    match e with
    | .MemTree base p1 p2 changes =>
      let seeded : Except Err (List (Name × Option Entry)) :=
        if mapContains el changes then .ok changes
        else
          match base with
          | some h =>
            match storeGet store h with
            | none => .error (.ManifestMissing h)
            | some listing =>
              match listingLookup listing el with
              | none => .ok changes
              | some (hh, t) =>
                let ent := if t = .tree then convertTreenode hh
                           else .Blob ⟨some el, hh, t⟩
                .ok (mapInsert el (some ent) changes)
          | none => .ok changes
      match seeded with
      | .error err => .error err
      | .ok changes1 =>
        let filled :=
          match mapLookup el changes1 with
          | some (some c) =>
            let c' := conflictToMemtree c
            (c', mapInsert el (some c') changes1)
          | _ => (emptyTree, mapInsert el (some emptyTree) changes1)
        match findMut store filled.1 rest with
        | .error err => .error err
        | .ok (found, sub) =>
          .ok (found, .MemTree base p1 p2 (mapInsert el (some sub) filled.2))
    | _ => .ok (none, e)

/-- `MemoryManifestEntry::change`: on a tree, unconditionally insert the new leaf
(or the deletion marker `none`) under the given name; on anything else fail with
`NotADirectory`. -/
def change (e : Entry) (el : Name) (c : Option BlobInfo) : Except Err Entry :=
  match e with
  | .MemTree base p1 p2 changes =>
    .ok (.MemTree base p1 p2 (mapInsert el (Option.map .Blob c) changes))
  | _ => .error .NotADirectory

/-- Write a replacement node back at the given path (the pure rendition of the
shared-`Arc` mutation that `change_entry` performs through the handle returned by
`find_mut`: after a successful walk, every component of the path is present in
the change maps). -/
def setAt (e : Entry) : List Name → Entry → Entry
  | [], new => new
  | el :: rest, new =>
    match e with
    | .MemTree base p1 p2 changes =>
      match mapLookup el changes with
      | some (some c) => .MemTree base p1 p2 (mapInsert el (some (setAt c rest new)) changes)
      | _ => .MemTree base p1 p2 changes
    | _ => e

/-- `MemoryRootManifest::change_entry` with the path already split by
`split_dirname` into the parent directory components and the final name: reach or
create the parent via `find_mut` (an unreachable parent is `PathNotFound` over
the full path), then `change` the final name there (`NotADirectory` if the parent
is not a tree). The returned entry is the updated root. -/
def changeEntry (store : Store) (root : Entry) (dirpath : List Name) (filename : Name)
    (c : Option BlobInfo) : Except Err Entry :=
  match dirpath with
  | [] => change root filename c
  | _ =>
    match findMut store root dirpath with
    | .error err => .error err
    | .ok (none, _) => .error (.PathNotFound (dirpath ++ [filename]))
    | .ok (some target, updatedRoot) =>
      match change target filename c with
      | .error err => .error err
      | .ok newTarget => .ok (setAt updatedRoot dirpath newTarget)

/-! Claim C1: merging two leaves. -/

/-- C1: `merge_with_conflicts` on two `Blob` leaves is a no-op returning the first
leaf when the content hashes agree, and otherwise produces
`Conflict [mine, theirs]` in exactly that argument order (so merging A with B
gives `Conflict [A, B]` and merging B with A gives `Conflict [B, A]`); the store
is untouched either way. -/
theorem merge_leaf_leaf (b1 b2 : BlobInfo) (store : Store) (path : RPath) (fuel : Nat) :
    mergeWithConflicts (fuel + 1) store (.Blob b1) (.Blob b2) path =
      .ok ((if b1.hash = b2.hash then .Blob b1 else .Conflict [.Blob b1, .Blob b2]), store) := by
  simp only [mergeWithConflicts, isModified, Bool.false_eq_true, if_false]
  split <;> simp_all

/-! Claim C2: saving an unmodified baseline-backed tree. -/

/-- C2 counterexample: an `Overlay` that is unmodified (baseline present, changes
empty) but carries a `p2` does not save to a reference to its baseline — it fails
with `UnchangedManifest`. -/
theorem save_unmodified_with_p2_fails :
    save 1 [] (.MemTree (some 5) (some 5) (some 7) []) [] = .error .UnchangedManifest := rfl

/-- C2 (amended): for every `Overlay` node that is unmodified (baseline hash `H`
present and changes empty) and has no `p2`, `save` yields a reference to `H`
unchanged and performs no store write: at the root a root entry for `H`, below
the root an entry of (basename, `H`, tree type). -/
theorem save_unmodified_baseline (h : Hash) (p1 : Option Hash) (store : Store)
    (path : RPath) (fuel : Nat) :
    save (fuel + 1) store (.MemTree (some h) p1 none []) path =
      .ok (⟨path.getLast?, h, .tree⟩, store) := by
  simp [save, isModified]

/-! Claim C3: merge identity on a shared unmodified baseline. -/

/-- C3 counterexample: two unmodified trees sharing baseline 5, both carrying two
parents, do not merge to either side — the merge fails with
`ManifestAlreadyAMerge` before the identity check is reached. -/
theorem merge_identity_two_parent_fails :
    mergeWithConflicts 1 [] (.MemTree (some 5) (some 1) (some 2) [])
        (.MemTree (some 5) (some 1) (some 2) []) [] =
      .error (.ManifestAlreadyAMerge 1 2) := rfl

/-- C3 (amended): merging two unmodified trees that share the same baseline hash
returns the first side unchanged — no new node, no new hash, no conflict —
provided neither side already carries two parents. -/
theorem merge_identity_same_baseline (h : Hash) (q1 q2 r1 r2 : Option Hash)
    (store : Store) (path : RPath) (fuel : Nat)
    (hq : ¬(q1.isSome = true ∧ q2.isSome = true))
    (hr : ¬(r1.isSome = true ∧ r2.isSome = true)) :
    mergeWithConflicts (fuel + 1) store (.MemTree (some h) q1 q2 [])
        (.MemTree (some h) r1 r2 []) path =
      .ok (.MemTree (some h) q1 q2 [], store) := by
  cases q1 <;> cases q2 <;> cases r1 <;> cases r2 <;>
    simp_all [mergeWithConflicts, isModified]

/-- C3 witness: the amended identity at a concrete unmodified single-parent pair. -/
theorem merge_identity_same_baseline_witness :
    mergeWithConflicts 1 [] (.MemTree (some 5) (some 3) none [])
        (.MemTree (some 5) (some 4) none []) [] =
      .ok (.MemTree (some 5) (some 3) none [], []) :=
  merge_identity_same_baseline 5 (some 3) none (some 4) none [] [] 0
    (by simp) (by simp)

/-! Claim C5: merging a node that already carries two parents. -/

/-- C5 counterexample: a side that carries two parents but is modified (no
baseline) does not make the merge fail — it is first saved and re-loaded as a
clean node, and the merge then succeeds. -/
theorem merge_modified_two_parent_succeeds :
    (mergeWithConflicts 5 [(3, [])] (.MemTree none (some 1) (some 2) [])
        (.MemTree (some 3) (some 3) none []) []).isOk = true := rfl

/-- C5 (amended): when both sides are unmodified trees and either side carries two
parents, the merge fails with `ManifestAlreadyAMerge(parent1, parent2)` taken
from the first such side (the first argument is examined first). -/
theorem merge_already_merged_fails :
    (∀ (h1 h2 a b : Hash) (r1 r2 : Option Hash) (store : Store) (path : RPath) (fuel : Nat),
      mergeWithConflicts (fuel + 1) store (.MemTree (some h1) (some a) (some b) [])
          (.MemTree (some h2) r1 r2 []) path =
        .error (.ManifestAlreadyAMerge a b)) ∧
    (∀ (h1 h2 a b : Hash) (q1 q2 : Option Hash) (store : Store) (path : RPath) (fuel : Nat),
      ¬(q1.isSome = true ∧ q2.isSome = true) →
      mergeWithConflicts (fuel + 1) store (.MemTree (some h1) q1 q2 [])
          (.MemTree (some h2) (some a) (some b) []) path =
        .error (.ManifestAlreadyAMerge a b)) := by
  constructor
  · intro h1 h2 a b r1 r2 store path fuel
    simp [mergeWithConflicts, isModified]
  · intro h1 h2 a b q1 q2 store path fuel hq
    cases q1 <;> cases q2 <;> simp_all [mergeWithConflicts, isModified]

/-- C5 witness: the amended failure at concrete inputs, one for each side. -/
theorem merge_already_merged_fails_witness :
    mergeWithConflicts 1 [] (.MemTree (some 5) (some 1) (some 2) [])
        (.MemTree (some 6) (some 3) none []) [] =
      .error (.ManifestAlreadyAMerge 1 2) ∧
    mergeWithConflicts 1 [] (.MemTree (some 5) (some 3) none [])
        (.MemTree (some 6) (some 1) (some 2) []) [] =
      .error (.ManifestAlreadyAMerge 1 2) :=
  ⟨merge_already_merged_fails.1 5 6 1 2 (some 3) none [] [] 0,
   merge_already_merged_fails.2 5 6 1 2 (some 3) none [] [] 0 (by simp)⟩

/-! Claim C6: deleting the only entry of a directory collapses it on save. -/

/-- The baseline store of the deletion scenario: root manifest 100 lists the
directory `[1]` (manifest 101) and the file `[3]`; manifest 101 lists the single
file `[2]`. -/
def delStore : Store :=
  [(100, [([1], 101, .tree), ([3], 6, .file)]), (101, [([2], 5, .file)])]

/-- The root of the deletion scenario after removing `[1]/[2]` via `change_entry`:
the directory `[1]` carries only the deletion marker. -/
def delRoot : Entry :=
  .MemTree (some 100) (some 100) none
    [([1], some (.MemTree (some 101) (some 101) none [([2], none)]))]

/-- C6: removing the only entry under directory `[1]` (via `change_entry` on the
baseline-loaded root) leaves that directory reporting `is_empty = true`, and
saving the parent drops the directory entirely: the listing reloaded from the
saved hash contains only the sibling file `[3]`, with `[1]` absent. -/
theorem deletion_collapses_empty_dir :
    changeEntry delStore (convertTreenode 100) [[1]] [2] none = .ok delRoot ∧
    isEmpty 3 delStore (.MemTree (some 101) (some 101) none [([2], none)]) = .ok true ∧
    (save 5 delStore delRoot []).toOption.map (fun q => storeGet q.2 q.1.hash) =
      some (some [([3], 6, .file)]) :=
  ⟨rfl, rfl, rfl⟩

/-! Claim C10: `change` on the three entry shapes. -/

/-- C10: `change` on a tree always succeeds, unconditionally overwriting whatever
the change map currently records under that name — be it a subtree or an
unresolved conflict — with the given leaf (or deletion marker); `change` on a
`Blob` or a `Conflict` fails with `NotADirectory`. -/
theorem change_overwrites_or_not_a_directory :
    (∀ (base p1 p2 : Option Hash) (changes : List (Name × Option Entry))
        (el : Name) (c : Option BlobInfo),
      change (.MemTree base p1 p2 changes) el c =
        .ok (.MemTree base p1 p2 (mapInsert el (Option.map .Blob c) changes))) ∧
    (∀ (b : BlobInfo) (el : Name) (c : Option BlobInfo),
      change (.Blob b) el c = .error .NotADirectory) ∧
    (∀ (cs : List Entry) (el : Name) (c : Option BlobInfo),
      change (.Conflict cs) el c = .error .NotADirectory) :=
  ⟨fun _ _ _ _ _ _ => rfl, fun _ _ _ => rfl, fun _ _ _ => rfl⟩

/-! Helper lemmas about the ordered map operations and `find_mut`. -/

theorem nameLt_irrefl (l : Name) : nameLt l l = false := by
  induction l with
  | nil => rfl
  | cons a as ih => simp [nameLt, ih]

theorem mapInsert_mapInsert_self (k : Name) (v w : α) (m : List (Name × α)) :
    mapInsert k v (mapInsert k w m) = mapInsert k v m := by
  induction m with
  | nil => simp [mapInsert, nameLt_irrefl]
  | cons p rest ih =>
    by_cases h1 : nameLt k p.1 = true
    · simp [mapInsert, h1, nameLt_irrefl]
    · by_cases h2 : k = p.1
      · simp [mapInsert, h1, h2, nameLt_irrefl]
      · simp [mapInsert, h1, h2, ih]

/-- One step of `find_mut` into a tree with no baseline and an empty change map:
the missing component is created as a fresh empty tree and the walk continues
inside it. -/
theorem findMut_fresh_step (p q : Option Hash) (el : Name) (rest : List Name)
    (store : Store) :
    findMut store (.MemTree none p q []) (el :: rest) =
      match findMut store emptyTree rest with
      | .error err => .error err
      | .ok (found, sub) => .ok (found, .MemTree none p q [(el, some sub)]) := by
  simp only [findMut, mapContains, mapLookup, Option.isSome, if_false]
  cases hrest : findMut store emptyTree rest with
  | error err =>
    simp [emptyTree] at hrest
    simp [hrest, mapLookup, mapInsert, nameLt_irrefl, emptyTree]
  | ok r =>
    obtain ⟨found, sub⟩ := r
    simp [emptyTree] at hrest
    simp [hrest, mapLookup, mapInsert, nameLt_irrefl, emptyTree]

/-- On a tree with no baseline and an empty change map, `find_mut` creates the
whole chain of intermediate trees and returns the final freshly created empty
tree. -/
theorem findMut_fresh_path (store : Store) :
    ∀ (path : List Name) (p q : Option Hash), path ≠ [] →
      ∃ e', findMut store (.MemTree none p q []) path = .ok (some emptyTree, e') := by
  intro path
  induction path with
  | nil => intro p q hne; exact absurd rfl hne
  | cons el rest ih =>
    intro p q _
    rw [findMut_fresh_step p q el rest store]
    cases rest with
    | nil => exact ⟨.MemTree none p q [(el, some emptyTree)], rfl⟩
    | cons el2 rest2 =>
      obtain ⟨e', he⟩ := ih none none (by simp)
      have he' : findMut store emptyTree (el2 :: rest2) = .ok (some emptyTree, e') := he
      exact ⟨.MemTree none p q [(el, some e')], by rw [he']⟩

/-! Claim C8: navigation behaviour of `find_mut` and the errors of `change_entry`. -/

/-- C8: `find_mut` succeeds with the final node once the path is exhausted; it
creates intermediate empty trees on demand for missing components (both on a
fresh tree and when a name is absent from the baseline listing); it returns
not-found when a remaining component must pass through a `Blob`; consequently
`change_entry` fails with `PathNotFound` when navigation cannot reach the parent
directory and with `NotADirectory` when the resolved parent is not a tree. -/
theorem findMut_navigation :
    (∀ (store : Store) (e : Entry), findMut store e [] = .ok (some e, e)) ∧
    (∀ (store : Store) (b : BlobInfo) (el : Name) (rest : List Name),
      findMut store (.Blob b) (el :: rest) = .ok (none, .Blob b)) ∧
    (∀ (store : Store) (p q : Option Hash) (path : List Name), path ≠ [] →
      ∃ e', findMut store (.MemTree none p q []) path = .ok (some emptyTree, e')) ∧
    (∀ (store : Store) (h : Hash) (listing : Listing) (p q : Option Hash)
        (changes : List (Name × Option Entry)) (el : Name),
      mapContains el changes = false → storeGet store h = some listing →
      listingLookup listing el = none →
      findMut store (.MemTree (some h) p q changes) [el] =
        .ok (some emptyTree, .MemTree (some h) p q (mapInsert el (some emptyTree) changes))) ∧
    (∀ (store : Store) (root : Entry) (el : Name) (dirrest : List Name)
        (filename : Name) (c : Option BlobInfo) (e' : Entry),
      findMut store root (el :: dirrest) = .ok (none, e') →
      changeEntry store root (el :: dirrest) filename c =
        .error (.PathNotFound ((el :: dirrest) ++ [filename]))) ∧
    (∀ (store : Store) (root t e' : Entry) (el : Name) (dirrest : List Name)
        (filename : Name) (c : Option BlobInfo),
      findMut store root (el :: dirrest) = .ok (some t, e') →
      (∀ base p1 p2 ch, t ≠ .MemTree base p1 p2 ch) →
      changeEntry store root (el :: dirrest) filename c = .error .NotADirectory) := by
  refine ⟨fun _ _ => rfl, fun _ _ _ _ => rfl,
    fun store p q path hp => findMut_fresh_path store path p q hp, ?_, ?_, ?_⟩
  · intro store h listing p q changes el hc hs hl
    have hlk : mapLookup el changes = none := by
      cases hcase : mapLookup el changes with
      | none => rfl
      | some v => simp [mapContains, hcase] at hc
    simp [findMut, hc, hs, hl, hlk, mapInsert_mapInsert_self]
  · intro store root el dirrest filename c e' hfind
    simp [changeEntry, hfind]
  · intro store root t e' el dirrest filename c hfind hnt
    cases t with
    | MemTree base p1 p2 ch => exact absurd rfl (hnt base p1 p2 ch)
    | Blob b => simp [changeEntry, hfind, change]
    | Conflict cs => simp [changeEntry, hfind, change]

/-- C8 witness: the conjuncts at concrete inputs — exhausted path, descent through
a file, creation along a two-component fresh path, creation under a baseline
that lacks the name, `PathNotFound` through a file with path remaining, and
`NotADirectory` when the resolved parent is a file. -/
theorem findMut_navigation_witness :
    findMut [] (.Blob ⟨some [1], 9, .file⟩) [] =
      .ok (some (.Blob ⟨some [1], 9, .file⟩), .Blob ⟨some [1], 9, .file⟩) ∧
    findMut [] (.Blob ⟨some [1], 9, .file⟩) [[2]] = .ok (none, .Blob ⟨some [1], 9, .file⟩) ∧
    (∃ e', findMut [] (.MemTree none none none []) [[7], [8]] = .ok (some emptyTree, e')) ∧
    findMut [(4, [])] (.MemTree (some 4) (some 4) none []) [[7]] =
      .ok (some emptyTree, .MemTree (some 4) (some 4) none [([7], some emptyTree)]) ∧
    changeEntry [] (.Blob ⟨some [1], 9, .file⟩) [[2]] [3] none =
      .error (.PathNotFound [[2], [3]]) ∧
    changeEntry [] (.MemTree none none none [([2], some (.Blob ⟨some [2], 9, .file⟩))])
        [[2]] [3] none = .error .NotADirectory := by
  refine ⟨findMut_navigation.1 [] _, findMut_navigation.2.1 [] _ [2] [],
    findMut_navigation.2.2.1 [] none none [[7], [8]] (by simp),
    ?_, findMut_navigation.2.2.2.2.1 [] _ [2] [] [3] none _ rfl, ?_⟩
  · have := findMut_navigation.2.2.2.1 [(4, [])] 4 [] (some 4) none [] [7]
      rfl rfl rfl
    simpa [mapInsert] using this
  · exact findMut_navigation.2.2.2.2.2 [] _ (.Blob ⟨some [2], 9, .file⟩) _ [2] [] [3] none
      rfl (by intro _ _ _ _ h; cases h)

/-- One step of `find_mut` through a deletion marker: the marker is replaced by a
fresh empty tree and the walk continues inside it. -/
theorem findMut_marker_step (base p1 p2 : Option Hash)
    (changes : List (Name × Option Entry)) (el : Name) (rest : List Name)
    (store : Store) (hmark : mapLookup el changes = some none) :
    findMut store (.MemTree base p1 p2 changes) (el :: rest) =
      match findMut store emptyTree rest with
      | .error err => .error err
      | .ok (found, sub) =>
        .ok (found, .MemTree base p1 p2 (mapInsert el (some sub) changes)) := by
  have hc : mapContains el changes = true := by simp [mapContains, hmark]
  simp only [findMut, hc, if_true, hmark]
  cases hrest : findMut store emptyTree rest with
  | error err => simp [emptyTree] at hrest; simp [hrest]
  | ok q =>
    obtain ⟨found, sub⟩ := q
    simp [emptyTree] at hrest
    simp [hrest, mapInsert_mapInsert_self]

/-! Claim C9: descent through a deletion marker resurrects an empty directory. -/

/-- C9: when the change map records `none` (deleted relative to baseline) under a
name, `find_mut` descending through that name replaces the deletion marker with a
fresh empty tree and descends into it successfully, returning the freshly created
empty tree rather than not-found; the updated node maps the name to the
(recursively updated) resurrected subtree. -/
theorem findMut_resurrects_deleted (base p1 p2 : Option Hash)
    (changes : List (Name × Option Entry)) (el : Name) (rest : List Name)
    (store : Store) (hmark : mapLookup el changes = some none) :
    ∃ sub, findMut store (.MemTree base p1 p2 changes) (el :: rest) =
      .ok (some emptyTree, .MemTree base p1 p2 (mapInsert el (some sub) changes)) := by
  rw [findMut_marker_step base p1 p2 changes el rest store hmark]
  cases rest with
  | nil => exact ⟨emptyTree, rfl⟩
  | cons el2 rest2 =>
    obtain ⟨e', he⟩ := findMut_fresh_path store (el2 :: rest2) none none (by simp)
    have he' : findMut store emptyTree (el2 :: rest2) = .ok (some emptyTree, e') := he
    exact ⟨e', by rw [he']⟩

/-- C9 witness: the resurrection at a concrete deletion marker. -/
theorem findMut_resurrects_deleted_witness :
    ∃ sub, findMut [] (.MemTree (some 4) (some 4) none [([7], none)]) [[7]] =
      .ok (some emptyTree,
           .MemTree (some 4) (some 4) none (mapInsert [7] (some sub) [([7], none)])) :=
  findMut_resurrects_deleted (some 4) (some 4) none [([7], none)] [7] [] [] rfl

/-! Order lemmas for the byte-string key order, and sortedness invariants of the
map operations — the `BTreeMap` facts the serialization order rests on. -/

theorem nameLt_trichotomy : ∀ (a b : Name), nameLt a b = true ∨ a = b ∨ nameLt b a = true := by
  intro a
  induction a with
  | nil => intro b; cases b <;> simp [nameLt]
  | cons x xs ih =>
    intro b
    cases b with
    | nil => simp [nameLt]
    | cons y ys =>
      by_cases h1 : x < y
      · left; simp [nameLt, h1]
      · by_cases h2 : y < x
        · right; right; simp [nameLt, h2]
        · have hxy : x = y := by omega
          subst hxy
          rcases ih ys with h | h | h
          · left; simp [nameLt, h]
          · right; left; rw [h]
          · right; right; simp [nameLt, h]

theorem nameLt_trans : ∀ (a b c : Name), nameLt a b = true → nameLt b c = true →
    nameLt a c = true := by
  intro a
  induction a with
  | nil =>
    intro b c hab hbc
    cases b with
    | nil => simp [nameLt] at hab
    | cons y ys =>
      cases c with
      | nil => simp [nameLt] at hbc
      | cons z zs => simp [nameLt]
  | cons x xs ih =>
    intro b c hab hbc
    cases b with
    | nil => simp [nameLt] at hab
    | cons y ys =>
      cases c with
      | nil => simp [nameLt] at hbc
      | cons z zs =>
        by_cases h1 : x < y
        · by_cases h2 : y < z
          · simp [nameLt, show x < z by omega]
          · by_cases h3 : z < y
            · simp [nameLt, h2, h3] at hbc
            · have : y = z := by omega
              subst this
              simp [nameLt, h1]
        · by_cases h4 : y < x
          · simp [nameLt, h1, h4] at hab
          · have hxy : x = y := by omega
            subst hxy
            by_cases h2 : x < z
            · simp [nameLt, h2]
            · by_cases h3 : z < x
              · simp [nameLt, h2, h3] at hbc
              · have : x = z := by omega
                subst this
                simp [nameLt, h1] at hab hbc ⊢
                exact ih ys zs hab hbc

theorem nameLt_of_not_of_ne (k k' : Name) (h1 : ¬nameLt k k' = true) (h2 : ¬k = k') :
    nameLt k' k = true := by
  rcases nameLt_trichotomy k k' with h | h | h
  · exact absurd h h1
  · exact absurd h h2
  · exact h

theorem mapInsert_mem {α : Type} (k : Name) (v : α) (m : List (Name × α))
    (x : Name × α) (hx : x ∈ mapInsert k v m) : x = (k, v) ∨ x ∈ m := by
  induction m with
  | nil => simpa [mapInsert] using hx
  | cons p rest ih =>
    by_cases h1 : nameLt k p.1 = true
    · rw [show mapInsert k v (p :: rest) = (k, v) :: p :: rest by simp [mapInsert, h1]] at hx
      rcases List.mem_cons.mp hx with h | h
      · exact .inl h
      · exact .inr h
    · by_cases h2 : k = p.1
      · rw [show mapInsert k v (p :: rest) = (k, v) :: rest by
          simp [mapInsert, h1, h2, nameLt_irrefl]] at hx
        rcases List.mem_cons.mp hx with h | h
        · exact .inl h
        · exact .inr (List.mem_cons_of_mem p h)
      · rw [show mapInsert k v (p :: rest) = p :: mapInsert k v rest by
          simp [mapInsert, h1, h2]] at hx
        rcases List.mem_cons.mp hx with h | h
        · exact .inr (by rw [h]; exact List.mem_cons_self p rest)
        · rcases ih h with h' | h'
          · exact .inl h'
          · exact .inr (List.mem_cons_of_mem p h')

theorem mapInsert_pairwise {α : Type} (k : Name) (v : α) (m : List (Name × α))
    (hm : List.Pairwise (fun p q => nameLt p.1 q.1 = true) m) :
    List.Pairwise (fun p q => nameLt p.1 q.1 = true) (mapInsert k v m) := by
  induction m with
  | nil => simp [mapInsert]
  | cons p rest ih =>
    rw [List.pairwise_cons] at hm
    obtain ⟨hp, hrest⟩ := hm
    by_cases h1 : nameLt k p.1 = true
    · rw [show mapInsert k v (p :: rest) = (k, v) :: p :: rest by simp [mapInsert, h1]]
      refine List.Pairwise.cons ?_ (List.Pairwise.cons hp hrest)
      intro y hy
      rcases List.mem_cons.mp hy with h | h
      · rw [h]; exact h1
      · exact nameLt_trans k p.1 y.1 h1 (hp y h)
    · by_cases h2 : k = p.1
      · rw [show mapInsert k v (p :: rest) = (k, v) :: rest by
          simp [mapInsert, h1, h2, nameLt_irrefl]]
        exact List.Pairwise.cons (fun y hy => by rw [h2]; exact hp y hy) hrest
      · rw [show mapInsert k v (p :: rest) = p :: mapInsert k v rest by
          simp [mapInsert, h1, h2]]
        refine List.Pairwise.cons ?_ (ih hrest)
        intro y hy
        rcases mapInsert_mem k v rest y hy with h | h
        · rw [h]; exact nameLt_of_not_of_ne k p.1 h1 h2
        · exact hp y h

theorem mapRemove_sublist {α : Type} (k : Name) (m : List (Name × α)) :
    List.Sublist (mapRemove k m) m := by
  induction m with
  | nil => simp [mapRemove]
  | cons p rest ih =>
    by_cases h : k = p.1
    · rw [show mapRemove k (p :: rest) = rest by simp [mapRemove, h]]
      exact List.sublist_cons_self p rest
    · rw [show mapRemove k (p :: rest) = p :: mapRemove k rest by simp [mapRemove, h]]
      exact ih.cons₂ p

theorem applyChanges_pairwise (changes : List (Name × Option Entry)) :
    ∀ (init : List (Name × Entry)),
      List.Pairwise (fun p q => nameLt p.1 q.1 = true) init →
      List.Pairwise (fun p q => nameLt p.1 q.1 = true) (applyChanges changes init) := by
  induction changes with
  | nil => intro init h; simpa [applyChanges] using h
  | cons c rest ih =>
    intro init h
    obtain ⟨n, oe⟩ := c
    cases oe with
    | none => exact ih (mapRemove n init) (h.sublist (mapRemove_sublist n init))
    | some e => exact ih (mapInsert n e init) (mapInsert_pairwise n e init h)

theorem foldl_mapInsert_pairwise {β : Type} (f : β → Name) (g : β → Entry) :
    ∀ (l : List β) (init : List (Name × Entry)),
      List.Pairwise (fun p q => nameLt p.1 q.1 = true) init →
      List.Pairwise (fun p q => nameLt p.1 q.1 = true)
        (l.foldl (fun m x => mapInsert (f x) (g x) m) init) := by
  intro l
  induction l with
  | nil => intro init h; simpa using h
  | cons x rest ih =>
    intro init h
    rw [List.foldl_cons]
    exact ih (mapInsert (f x) (g x) init) (mapInsert_pairwise (f x) (g x) init h)

/-- The child map produced by `get_new_children` is always sorted by name: the
baseline rows are folded into a fresh map and the changes are replayed with
order-preserving inserts and removes. -/
theorem getNewChildren_pairwise (store : Store) (e : Entry)
    (children : List (Name × Entry)) (h : getNewChildren store e = .ok children) :
    List.Pairwise (fun p q => nameLt p.1 q.1 = true) children := by
  cases e with
  | Blob b =>
    simp [getNewChildren] at h
    subst h
    simp
  | Conflict cs =>
    simp [getNewChildren] at h
    subst h
    simp
  | MemTree base p1 p2 changes =>
    cases base with
    | none =>
      simp [getNewChildren] at h
      rw [← h]
      exact applyChanges_pairwise changes [] (by simp)
    | some hsh =>
      cases hs : storeGet store hsh with
      | none => simp [getNewChildren, hs] at h
      | some listing =>
        simp [getNewChildren, hs] at h
        rw [← h]
        refine applyChanges_pairwise changes _ ?_
        exact foldl_mapInsert_pairwise (fun q => q.1)
          (fun q => if q.2.2 = EType.tree then convertTreenode q.2.1
                    else .Blob ⟨some q.1, q.2.1, q.2.2⟩) listing [] (by simp)

/-- The rows emitted by the save loop keep a subsequence of the child names, in
order: empty children are dropped, the rest keep their position. -/
theorem saveChildren_keys_sublist :
    ∀ (children : List (Name × Entry)) (fuel : Nat) (store : Store) (path : RPath)
      (res : List (Name × BlobInfo)) (store' : Store),
      saveChildren fuel store children path = .ok (res, store') →
      List.Sublist (res.map Prod.fst) (children.map Prod.fst) := by
  intro children
  induction children with
  | nil =>
    intro fuel store path res store' h
    cases fuel with
    | zero => simp [saveChildren] at h
    | succ fuel => simp [saveChildren] at h; simp [← h.1]
  | cons p rest ih =>
    intro fuel store path res store' h
    cases fuel with
    | zero => simp [saveChildren] at h
    | succ fuel =>
      obtain ⟨n, c⟩ := p
      cases hie : isEmpty fuel store c with
      | error err => simp [saveChildren, hie] at h
      | ok b =>
        cases b with
        | true =>
          simp only [saveChildren, hie] at h
          exact (ih fuel store path res store' h).trans
            (by simp)
        | false =>
          cases hsv : save fuel store c (path ++ [n]) with
          | error err => simp [saveChildren, hie, hsv] at h
          | ok q =>
            obtain ⟨b1, store1⟩ := q
            cases hsc : saveChildren fuel store1 rest path with
            | error err => simp [saveChildren, hie, hsv, hsc] at h
            | ok r =>
              obtain ⟨bs, store2⟩ := r
              simp only [saveChildren, hie, hsv, hsc, Except.ok.injEq, Prod.mk.injEq] at h
              obtain ⟨h1, h2⟩ := h
              rw [← h1]
              simpa using (ih fuel store1 path bs store2 hsc).cons₂ n

/-- Unfolding helper: `serializeListing` appends one encoded row per entry. -/
theorem serializeListing_acc (enc : Name × Hash × EType → List Nat)
    (henc : ∀ q, enc q = q.1 ++ [0] ++ hexOfHash q.2.1 ++ [typeChar q.2.2] ++ [10]) :
    ∀ (l : Listing) (acc : List Nat),
      l.foldl (fun a q => a ++ q.1 ++ [0] ++ hexOfHash q.2.1 ++ [typeChar q.2.2] ++ [10]) acc =
        acc ++ (l.map enc).flatten := by
  intro l
  induction l with
  | nil => intro acc; simp
  | cons q rest ih =>
    intro acc
    simp only [List.foldl_cons, List.map_cons, List.flatten_cons]
    rw [ih, henc q]
    simp

/-! Machinery for claim C4: fully in-memory ("pure") subtrees, the presence of a
conflict below an entry, and size measures that bound the fuel an operation on a
pure entry can consume. -/

/-- The change-map keys form a strictly ascending chain — the shape every
`BTreeMap` has; used to rule out the duplicate keys an arbitrary association
list could carry. -/
def keysSortedB : List (Name × Option Entry) → Bool
  | [] => true
  | [_] => true
  | p :: q :: rest => nameLt p.1 q.1 && keysSortedB (q :: rest)

mutual

/-- A fully in-memory entry: every tree reachable through the change maps has no
baseline (so nothing is loaded from the store) and a well-formed (sorted) change
map. Conflicts and blobs are opaque endpoints. -/
def pureOk : Entry → Bool
  | .Blob _ => true
  | .Conflict _ => true
  | .MemTree base _ _ changes => base.isNone && keysSortedB changes && pureOkChanges changes

def pureOkChanges : List (Name × Option Entry) → Bool
  | [] => true
  | (_, none) :: rest => pureOkChanges rest
  | (_, some e) :: rest => pureOk e && pureOkChanges rest

end

mutual

/-- An unresolved `Conflict` sits somewhere at or below this entry, reachable
through the in-memory change maps. -/
def hasConflict : Entry → Bool
  | .Blob _ => false
  | .Conflict _ => true
  | .MemTree _ _ _ changes => hasConflictChanges changes

def hasConflictChanges : List (Name × Option Entry) → Bool
  | [] => false
  | (_, none) :: rest => hasConflictChanges rest
  | (_, some e) :: rest => hasConflict e || hasConflictChanges rest

end

mutual

/-- Fuel weight of an entry: enough steps for `save` and `is_empty` to fully
traverse a pure entry of this size. -/
def esize : Entry → Nat
  | .Blob _ => 1
  | .Conflict _ => 1
  | .MemTree _ _ _ changes => 4 + csize changes

/-- Fuel weight of a change map. -/
def csize : List (Name × Option Entry) → Nat
  | [] => 1
  | (_, none) :: rest => 2 + csize rest
  | (_, some e) :: rest => 2 + esize e + csize rest

end

/-- Fuel weight of a materialized child list. -/
def lsize : List (Name × Entry) → Nat
  | [] => 1
  | (_, c) :: rest => 1 + esize c + lsize rest

theorem mapInsert_self_mem {α : Type} (k : Name) (v : α) (m : List (Name × α)) :
    (k, v) ∈ mapInsert k v m := by
  induction m with
  | nil => simp [mapInsert]
  | cons p rest ih =>
    by_cases h1 : nameLt k p.1 = true
    · simp [mapInsert, h1]
    · by_cases h2 : k = p.1
      · simp [mapInsert, h1, h2, nameLt_irrefl]
      · simp [mapInsert, h1, h2, ih]

theorem mapInsert_mem_of_ne {α : Type} (k n : Name) (v c : α) (m : List (Name × α))
    (hmem : (n, c) ∈ m) (hne : n ≠ k) : (n, c) ∈ mapInsert k v m := by
  induction m with
  | nil => cases hmem
  | cons p rest ih =>
    by_cases h1 : nameLt k p.1 = true
    · rw [show mapInsert k v (p :: rest) = (k, v) :: p :: rest by simp [mapInsert, h1]]
      exact List.mem_cons_of_mem _ hmem
    · by_cases h2 : k = p.1
      · rw [show mapInsert k v (p :: rest) = (k, v) :: rest by
          simp [mapInsert, h1, h2, nameLt_irrefl]]
        rcases List.mem_cons.mp hmem with h | h
        · exact absurd (by rw [show n = p.1 from congrArg Prod.fst h, ← h2]) hne
        · exact List.mem_cons_of_mem _ h
      · rw [show mapInsert k v (p :: rest) = p :: mapInsert k v rest by
          simp [mapInsert, h1, h2]]
        rcases List.mem_cons.mp hmem with h | h
        · rw [h]; exact List.mem_cons_self _ _
        · exact List.mem_cons_of_mem _ (ih h)

theorem mapRemove_mem_of_ne {α : Type} (k n : Name) (c : α) (m : List (Name × α))
    (hmem : (n, c) ∈ m) (hne : n ≠ k) : (n, c) ∈ mapRemove k m := by
  induction m with
  | nil => cases hmem
  | cons p rest ih =>
    by_cases h2 : k = p.1
    · rw [show mapRemove k (p :: rest) = rest by simp [mapRemove, h2]]
      rcases List.mem_cons.mp hmem with h | h
      · exact absurd (by rw [show n = p.1 from congrArg Prod.fst h, ← h2]) hne
      · exact h
    · rw [show mapRemove k (p :: rest) = p :: mapRemove k rest by simp [mapRemove, h2]]
      rcases List.mem_cons.mp hmem with h | h
      · rw [h]; exact List.mem_cons_self _ _
      · exact List.mem_cons_of_mem _ (ih h)

theorem applyChanges_mem (changes : List (Name × Option Entry)) :
    ∀ (init : List (Name × Entry)) (x : Name × Entry),
      x ∈ applyChanges changes init → x ∈ init ∨ (x.1, some x.2) ∈ changes := by
  induction changes with
  | nil => intro init x hx; exact .inl (by simpa [applyChanges] using hx)
  | cons c rest ih =>
    intro init x hx
    obtain ⟨n, oe⟩ := c
    cases oe with
    | none =>
      rcases ih (mapRemove n init) x hx with h | h
      · exact .inl (List.Sublist.mem h (mapRemove_sublist n init))
      · exact .inr (List.mem_cons_of_mem _ h)
    | some e =>
      rcases ih (mapInsert n e init) x hx with h | h
      · rcases mapInsert_mem n e init x h with h' | h'
        · right
          rw [h']
          exact List.mem_cons_self _ _
        · exact .inl h'
      · exact .inr (List.mem_cons_of_mem _ h)

theorem applyChanges_mem_keep (changes : List (Name × Option Entry)) :
    ∀ (init : List (Name × Entry)) (n : Name) (c : Entry),
      (∀ q ∈ changes, n ≠ q.1) → (n, c) ∈ init → (n, c) ∈ applyChanges changes init := by
  induction changes with
  | nil => intro init n c _ hmem; simpa [applyChanges] using hmem
  | cons p rest ih =>
    intro init n c hk hmem
    obtain ⟨m, oe⟩ := p
    have hne : n ≠ m := hk (m, oe) (List.mem_cons_self _ _)
    have hk2 : ∀ q ∈ rest, n ≠ q.1 := fun q hq => hk q (List.mem_cons_of_mem _ hq)
    cases oe with
    | none => exact ih (mapRemove m init) n c hk2 (mapRemove_mem_of_ne m n c init hmem hne)
    | some e => exact ih (mapInsert m e init) n c hk2 (mapInsert_mem_of_ne m n e c init hmem hne)

theorem applyChanges_mem_of_changes (changes : List (Name × Option Entry)) :
    ∀ (init : List (Name × Entry)) (n : Name) (c : Entry),
      List.Pairwise (fun p q => p.1 ≠ q.1) changes → (n, some c) ∈ changes →
      (n, c) ∈ applyChanges changes init := by
  induction changes with
  | nil => intro init n c _ hmem; cases hmem
  | cons p rest ih =>
    intro init n c hnd hmem
    rw [List.pairwise_cons] at hnd
    obtain ⟨hhead, htail⟩ := hnd
    rcases List.mem_cons.mp hmem with h | h
    · rw [← h] at hhead
      rw [show applyChanges (p :: rest) init =
        applyChanges rest
          (match p.2 with
           | none => mapRemove p.1 init
           | some e => mapInsert p.1 e init) from rfl]
      rw [show p = (n, some c) from h.symm]
      refine applyChanges_mem_keep rest (mapInsert n c init) n c ?_
        (mapInsert_self_mem n c init)
      intro q hq
      simpa using hhead q hq
    · obtain ⟨m, oe⟩ := p
      cases oe with
      | none => exact ih (mapRemove m init) n c htail h
      | some e => exact ih (mapInsert m e init) n c htail h

theorem nameLt_ne (a b : Name) (h : nameLt a b = true) : a ≠ b := by
  intro hab
  rw [hab, nameLt_irrefl] at h
  cases h

theorem keysSortedB_pairwise (l : List (Name × Option Entry))
    (h : keysSortedB l = true) :
    List.Pairwise (fun p q => nameLt p.1 q.1 = true) l := by
  induction l with
  | nil => simp
  | cons p rest ih =>
    cases rest with
    | nil => simp
    | cons q rest2 =>
      rw [show keysSortedB (p :: q :: rest2) = (nameLt p.1 q.1 && keysSortedB (q :: rest2))
        from rfl] at h
      rw [Bool.and_eq_true] at h
      have htail := ih h.2
      refine List.Pairwise.cons ?_ htail
      intro y hy
      rcases List.mem_cons.mp hy with h2 | h2
      · rw [h2]; exact h.1
      · rw [List.pairwise_cons] at htail
        exact nameLt_trans p.1 q.1 y.1 h.1 (htail.1 y h2)

theorem keysSortedB_pairwise_ne (l : List (Name × Option Entry))
    (h : keysSortedB l = true) : List.Pairwise (fun p q => p.1 ≠ q.1) l :=
  (keysSortedB_pairwise l h).imp (fun hpq => nameLt_ne _ _ hpq)

theorem pureOkChanges_mem (changes : List (Name × Option Entry)) :
    ∀ (n : Name) (c : Entry), pureOkChanges changes = true → (n, some c) ∈ changes →
      pureOk c = true := by
  induction changes with
  | nil => intro n c _ hmem; cases hmem
  | cons p rest ih =>
    intro n c hpure hmem
    obtain ⟨m, oe⟩ := p
    rcases List.mem_cons.mp hmem with h | h
    · cases h
      rw [show pureOkChanges ((n, some c) :: rest) = (pureOk c && pureOkChanges rest)
        from rfl, Bool.and_eq_true] at hpure
      exact hpure.1
    · cases oe with
      | none =>
        rw [show pureOkChanges ((m, none) :: rest) = pureOkChanges rest from rfl] at hpure
        exact ih n c hpure h
      | some e =>
        rw [show pureOkChanges ((m, some e) :: rest) = (pureOk e && pureOkChanges rest)
          from rfl, Bool.and_eq_true] at hpure
        exact ih n c hpure.2 h

theorem hasConflictChanges_exists (changes : List (Name × Option Entry))
    (h : hasConflictChanges changes = true) :
    ∃ n c, (n, some c) ∈ changes ∧ hasConflict c = true := by
  induction changes with
  | nil => rw [show hasConflictChanges [] = false from rfl] at h; cases h
  | cons p rest ih =>
    obtain ⟨m, oe⟩ := p
    cases oe with
    | none =>
      rw [show hasConflictChanges ((m, none) :: rest) = hasConflictChanges rest from rfl] at h
      obtain ⟨n, c, hmem, hc⟩ := ih h
      exact ⟨n, c, List.mem_cons_of_mem _ hmem, hc⟩
    | some e =>
      rw [show hasConflictChanges ((m, some e) :: rest) =
        (hasConflict e || hasConflictChanges rest) from rfl, Bool.or_eq_true] at h
      rcases h with h | h
      · exact ⟨m, e, List.mem_cons_self _ _, h⟩
      · obtain ⟨n, c, hmem, hc⟩ := ih h
        exact ⟨n, c, List.mem_cons_of_mem _ hmem, hc⟩

theorem hasConflictChanges_mem_false (changes : List (Name × Option Entry)) :
    ∀ (n : Name) (c : Entry), hasConflictChanges changes = false → (n, some c) ∈ changes →
      hasConflict c = false := by
  induction changes with
  | nil => intro n c _ hmem; cases hmem
  | cons p rest ih =>
    intro n c hnc hmem
    obtain ⟨m, oe⟩ := p
    rcases List.mem_cons.mp hmem with h | h
    · cases h
      rw [show hasConflictChanges ((n, some c) :: rest) =
        (hasConflict c || hasConflictChanges rest) from rfl, Bool.or_eq_false_iff] at hnc
      exact hnc.1
    · cases oe with
      | none =>
        rw [show hasConflictChanges ((m, none) :: rest) = hasConflictChanges rest
          from rfl] at hnc
        exact ih n c hnc h
      | some e =>
        rw [show hasConflictChanges ((m, some e) :: rest) =
          (hasConflict e || hasConflictChanges rest) from rfl, Bool.or_eq_false_iff] at hnc
        exact ih n c hnc.2 h

theorem esize_pos (e : Entry) : 1 ≤ esize e := by
  cases e with
  | Blob b => rw [show esize (.Blob b) = 1 from rfl]
  | Conflict cs => rw [show esize (.Conflict cs) = 1 from rfl]
  | MemTree base p1 p2 changes =>
    rw [show esize (.MemTree base p1 p2 changes) = 4 + csize changes from rfl]
    omega

theorem lsize_pos (l : List (Name × Entry)) : 1 ≤ lsize l := by
  cases l with
  | nil => rw [show lsize [] = 1 from rfl]
  | cons p rest =>
    rw [show lsize (p :: rest) = 1 + esize p.2 + lsize rest from rfl]
    omega

theorem csize_pos (l : List (Name × Option Entry)) : 1 ≤ csize l := by
  cases l with
  | nil => rw [show csize [] = 1 from rfl]
  | cons p rest =>
    obtain ⟨n, oe⟩ := p
    cases oe with
    | none => rw [show csize ((n, none) :: rest) = 2 + csize rest from rfl]; omega
    | some e => rw [show csize ((n, some e) :: rest) = 2 + esize e + csize rest from rfl]; omega

theorem lsize_mapInsert_le (n : Name) (c : Entry) (m : List (Name × Entry)) :
    lsize (mapInsert n (c : Entry) m) ≤ 1 + esize c + lsize m := by
  induction m with
  | nil =>
    rw [show mapInsert n c ([] : List (Name × Entry)) = [(n, c)] from rfl,
      show lsize [(n, c)] = 1 + esize c + lsize [] from rfl]
  | cons p rest ih =>
    by_cases h1 : nameLt n p.1 = true
    · rw [show mapInsert n c (p :: rest) = (n, c) :: p :: rest by simp [mapInsert, h1],
        show lsize ((n, c) :: p :: rest) = 1 + esize c + lsize (p :: rest) from rfl]
    · by_cases h2 : n = p.1
      · rw [show mapInsert n c (p :: rest) = (n, c) :: rest by
          simp [mapInsert, h1, h2, nameLt_irrefl],
          show lsize ((n, c) :: rest) = 1 + esize c + lsize rest from rfl,
          show lsize (p :: rest) = 1 + esize p.2 + lsize rest from rfl]
        have := esize_pos p.2
        omega
      · rw [show mapInsert n c (p :: rest) = p :: mapInsert n c rest by
          simp [mapInsert, h1, h2],
          show lsize (p :: mapInsert n c rest) = 1 + esize p.2 + lsize (mapInsert n c rest)
            from rfl,
          show lsize (p :: rest) = 1 + esize p.2 + lsize rest from rfl]
        omega

theorem lsize_mapRemove_le (n : Name) (m : List (Name × Entry)) :
    lsize (mapRemove n m) ≤ lsize m := by
  induction m with
  | nil => rw [show mapRemove n ([] : List (Name × Entry)) = [] from rfl]
  | cons p rest ih =>
    by_cases h2 : n = p.1
    · rw [show mapRemove n (p :: rest) = rest by simp [mapRemove, h2],
        show lsize (p :: rest) = 1 + esize p.2 + lsize rest from rfl]
      omega
    · rw [show mapRemove n (p :: rest) = p :: mapRemove n rest by simp [mapRemove, h2],
        show lsize (p :: mapRemove n rest) = 1 + esize p.2 + lsize (mapRemove n rest)
          from rfl,
        show lsize (p :: rest) = 1 + esize p.2 + lsize rest from rfl]
      omega

theorem lsize_applyChanges_le (changes : List (Name × Option Entry)) :
    ∀ (init : List (Name × Entry)),
      lsize (applyChanges changes init) ≤ lsize init + csize changes := by
  induction changes with
  | nil =>
    intro init
    rw [show applyChanges [] init = init from rfl, show csize [] = 1 from rfl]
    omega
  | cons p rest ih =>
    intro init
    obtain ⟨n, oe⟩ := p
    cases oe with
    | none =>
      rw [show applyChanges ((n, none) :: rest) init = applyChanges rest (mapRemove n init)
        from rfl, show csize ((n, none) :: rest) = 2 + csize rest from rfl]
      have h1 := ih (mapRemove n init)
      have h2 := lsize_mapRemove_le n init
      omega
    | some e =>
      rw [show applyChanges ((n, some e) :: rest) init = applyChanges rest (mapInsert n e init)
        from rfl, show csize ((n, some e) :: rest) = 2 + esize e + csize rest from rfl]
      have h1 := ih (mapInsert n e init)
      have h2 := lsize_mapInsert_le n e init
      omega

/-- On a pure (fully in-memory) entry, `is_empty` always succeeds given fuel at
least the entry's weight, and it answers `false` whenever a conflict sits below
the entry (a `Conflict` is never empty, so a tree holding one is not empty). -/
theorem isEmpty_pure :
    ∀ (fuel : Nat),
      (∀ (e : Entry) (store : Store), pureOk e = true → esize e ≤ fuel →
        ∃ b, isEmpty fuel store e = .ok b ∧ (hasConflict e = true → b = false)) ∧
      (∀ (l : List (Name × Entry)) (store : Store),
        (∀ x ∈ l, pureOk x.2 = true) → lsize l ≤ fuel →
        ∃ b, isEmptyList fuel store l = .ok b ∧
          ((∃ x ∈ l, hasConflict x.2 = true) → b = false)) := by
  intro fuel
  induction fuel with
  | zero =>
    constructor
    · intro e store _ hsz
      exact absurd hsz (by have := esize_pos e; omega)
    · intro l store _ hsz
      exact absurd hsz (by have := lsize_pos l; omega)
  | succ f ih =>
    constructor
    · intro e store hpure hsz
      cases e with
      | Blob b => exact ⟨false, rfl, fun _ => rfl⟩
      | Conflict cs => exact ⟨false, rfl, fun _ => rfl⟩
      | MemTree base p1 p2 changes =>
        rw [show pureOk (.MemTree base p1 p2 changes) =
          (base.isNone && keysSortedB changes && pureOkChanges changes) from rfl,
          Bool.and_eq_true, Bool.and_eq_true] at hpure
        obtain ⟨⟨hbase, hsort⟩, hpureC⟩ := hpure
        have hbase2 : base = none := Option.isNone_iff_eq_none.mp hbase
        subst hbase2
        have heq : isEmpty (f + 1) store (.MemTree none p1 p2 changes) =
            isEmptyList f store (applyChanges changes []) := rfl
        have hmem : ∀ x ∈ applyChanges changes [], pureOk x.2 = true := by
          intro x hx
          rcases applyChanges_mem changes [] x hx with h | h
          · cases h
          · exact pureOkChanges_mem changes x.1 x.2 hpureC h
        have hls : lsize (applyChanges changes []) ≤ f := by
          have h1 := lsize_applyChanges_le changes []
          rw [show esize (.MemTree none p1 p2 changes) = 4 + csize changes from rfl] at hsz
          rw [show lsize ([] : List (Name × Entry)) = 1 from rfl] at h1
          omega
        obtain ⟨b, hb, hbcond⟩ := ih.2 (applyChanges changes []) store hmem hls
        refine ⟨b, by rw [heq]; exact hb, ?_⟩
        intro hc
        rw [show hasConflict (.MemTree none p1 p2 changes) = hasConflictChanges changes
          from rfl] at hc
        obtain ⟨n, c, hmemc, hcc⟩ := hasConflictChanges_exists changes hc
        have hnd := keysSortedB_pairwise_ne changes hsort
        have hinc := applyChanges_mem_of_changes changes [] n c hnd hmemc
        exact hbcond ⟨(n, c), hinc, hcc⟩
    · intro l store hmem hsz
      cases l with
      | nil =>
        refine ⟨true, rfl, ?_⟩
        intro hx
        obtain ⟨x, hx2, _⟩ := hx
        cases hx2
      | cons p rest =>
        obtain ⟨n, c⟩ := p
        rw [show lsize ((n, c) :: rest) = 1 + esize c + lsize rest from rfl] at hsz
        have hszc : esize c ≤ f := by have := lsize_pos rest; omega
        have hszr : lsize rest ≤ f := by have := esize_pos c; omega
        obtain ⟨bc, hbc, hbcc⟩ := ih.1 c store (hmem (n, c) (List.mem_cons_self _ _)) hszc
        obtain ⟨br, hbr, hbrc⟩ :=
          ih.2 rest store (fun x hx => hmem x (List.mem_cons_of_mem _ hx)) hszr
        refine ⟨bc && br, ?_, ?_⟩
        · have heq : isEmptyList (f + 1) store ((n, c) :: rest) =
              match isEmpty f store c with
              | .error err => .error err
              | .ok b =>
                match isEmptyList f store rest with
                | .error err => .error err
                | .ok bs => .ok (b && bs) := rfl
          rw [heq]
          simp [hbc, hbr]
        · intro hex
          obtain ⟨x, hx, hcx⟩ := hex
          rcases List.mem_cons.mp hx with h | h
          · have hcc : hasConflict c = true := by
              rw [show x.2 = c from congrArg Prod.snd h] at hcx
              exact hcx
            rw [hbcc hcc]
            simp
          · rw [hbrc ⟨x, h, hcx⟩]
            simp

/-- On a pure entry with no conflict below it, `save` succeeds given fuel at
least the entry's weight, and a modified entry's resulting hash resolves in the
resulting store (the node was just written). -/
theorem save_pure_ok :
    ∀ (fuel : Nat),
      (∀ (e : Entry) (store : Store) (path : RPath),
        pureOk e = true → hasConflict e = false → esize e ≤ fuel →
        ∃ b store2, save fuel store e path = .ok (b, store2) ∧
          (isModified e = true → storeGet store2 b.hash ≠ none)) ∧
      (∀ (l : List (Name × Entry)) (store : Store) (path : RPath),
        (∀ x ∈ l, pureOk x.2 = true ∧ hasConflict x.2 = false) → lsize l ≤ fuel →
        ∃ res store2, saveChildren fuel store l path = .ok (res, store2)) := by
  intro fuel
  induction fuel with
  | zero =>
    constructor
    · intro e store path _ _ hsz
      exact absurd hsz (by have := esize_pos e; omega)
    · intro l store path _ hsz
      exact absurd hsz (by have := lsize_pos l; omega)
  | succ f ih =>
    constructor
    · intro e store path hpure hnc hsz
      cases e with
      | Blob b =>
        refine ⟨b, store, rfl, ?_⟩
        intro hm
        rw [show isModified (.Blob b) = false from rfl] at hm
        simp at hm
      | Conflict cs =>
        rw [show hasConflict (.Conflict cs) = true from rfl] at hnc
        simp at hnc
      | MemTree base p1 p2 changes =>
        rw [show pureOk (.MemTree base p1 p2 changes) =
          (base.isNone && keysSortedB changes && pureOkChanges changes) from rfl,
          Bool.and_eq_true, Bool.and_eq_true] at hpure
        obtain ⟨⟨hbase, hsort⟩, hpureC⟩ := hpure
        have hbase2 : base = none := Option.isNone_iff_eq_none.mp hbase
        subst hbase2
        rw [show hasConflict (.MemTree none p1 p2 changes) = hasConflictChanges changes
          from rfl] at hnc
        have hmem : ∀ x ∈ applyChanges changes [],
            pureOk x.2 = true ∧ hasConflict x.2 = false := by
          intro x hx
          rcases applyChanges_mem changes [] x hx with h | h
          · cases h
          · exact ⟨pureOkChanges_mem changes x.1 x.2 hpureC h,
              hasConflictChanges_mem_false changes x.1 x.2 hnc h⟩
        have hls : lsize (applyChanges changes []) ≤ f := by
          have h1 := lsize_applyChanges_le changes []
          rw [show esize (.MemTree none p1 p2 changes) = 4 + csize changes from rfl] at hsz
          rw [show lsize ([] : List (Name × Entry)) = 1 from rfl] at h1
          omega
        obtain ⟨res, store2, hsc⟩ := ih.2 (applyChanges changes []) store path hmem hls
        have heq : save (f + 1) store (.MemTree none p1 p2 changes) path =
            match saveChildren f store (applyChanges changes []) path with
            | .error err => .error err
            | .ok (entries, store1) =>
              .ok (⟨path.getLast?,
                    hashBytes (serializeListing
                      (entries.map (fun q => (q.1, q.2.hash, q.2.etype)))), .tree⟩,
                   storeInsert store1
                     (hashBytes (serializeListing
                       (entries.map (fun q => (q.1, q.2.hash, q.2.etype)))))
                     (entries.map (fun q => (q.1, q.2.hash, q.2.etype)))) := rfl
        refine ⟨⟨path.getLast?,
            hashBytes (serializeListing (res.map (fun q => (q.1, q.2.hash, q.2.etype)))),
            .tree⟩,
          storeInsert store2
            (hashBytes (serializeListing (res.map (fun q => (q.1, q.2.hash, q.2.etype)))))
            (res.map (fun q => (q.1, q.2.hash, q.2.etype))), ?_, ?_⟩
        · rw [heq]
          simp only [hsc]
        · intro _
          simp [storeGet, storeInsert]
    · intro l store path hmem hsz
      cases l with
      | nil => exact ⟨[], store, rfl⟩
      | cons p rest =>
        obtain ⟨n, c⟩ := p
        rw [show lsize ((n, c) :: rest) = 1 + esize c + lsize rest from rfl] at hsz
        have hszc : esize c ≤ f := by have := lsize_pos rest; omega
        have hszr : lsize rest ≤ f := by have := esize_pos c; omega
        obtain ⟨hpc, hncc⟩ := hmem (n, c) (List.mem_cons_self _ _)
        have hmemr : ∀ x ∈ rest, pureOk x.2 = true ∧ hasConflict x.2 = false :=
          fun x hx => hmem x (List.mem_cons_of_mem _ hx)
        obtain ⟨bc, hbc, _⟩ := (isEmpty_pure f).1 c store hpc hszc
        have heq : saveChildren (f + 1) store ((n, c) :: rest) path =
            match isEmpty f store c with
            | .error err => .error err
            | .ok true => saveChildren f store rest path
            | .ok false =>
              match save f store c (path ++ [n]) with
              | .error err => .error err
              | .ok (b, store1) =>
                match saveChildren f store1 rest path with
                | .error err => .error err
                | .ok (bs, store2) => .ok ((n, b) :: bs, store2) := rfl
        cases bc with
        | true =>
          obtain ⟨res, store2, hrest⟩ := ih.2 rest store path hmemr hszr
          refine ⟨res, store2, ?_⟩
          rw [heq]
          simp only [hbc]
          exact hrest
        | false =>
          obtain ⟨b1, store1, hsave, _⟩ := ih.1 c store (path ++ [n]) hpc hncc hszc
          obtain ⟨res, store2, hrest⟩ := ih.2 rest store1 path hmemr hszr
          refine ⟨(n, b1) :: res, store2, ?_⟩
          rw [heq]
          simp only [hbc, hsave, hrest]

/-- On a pure entry with a conflict at or below it, `save` fails with
`UnresolvedConflicts` given fuel at least the entry's weight: the conflicting
node is never empty, so it is not dropped, and its save aborts the whole
subtree's save. -/
theorem save_pure_conflict_fails :
    ∀ (fuel : Nat),
      (∀ (e : Entry) (store : Store) (path : RPath),
        pureOk e = true → hasConflict e = true → esize e ≤ fuel →
        save fuel store e path = .error .UnresolvedConflicts) ∧
      (∀ (l : List (Name × Entry)) (store : Store) (path : RPath),
        (∀ x ∈ l, pureOk x.2 = true) → (∃ x ∈ l, hasConflict x.2 = true) →
        lsize l ≤ fuel →
        saveChildren fuel store l path = .error .UnresolvedConflicts) := by
  intro fuel
  induction fuel with
  | zero =>
    constructor
    · intro e store path _ _ hsz
      exact absurd hsz (by have := esize_pos e; omega)
    · intro l store path _ _ hsz
      exact absurd hsz (by have := lsize_pos l; omega)
  | succ f ih =>
    constructor
    · intro e store path hpure hc hsz
      cases e with
      | Blob b =>
        rw [show hasConflict (.Blob b) = false from rfl] at hc
        simp at hc
      | Conflict cs => rfl
      | MemTree base p1 p2 changes =>
        rw [show pureOk (.MemTree base p1 p2 changes) =
          (base.isNone && keysSortedB changes && pureOkChanges changes) from rfl,
          Bool.and_eq_true, Bool.and_eq_true] at hpure
        obtain ⟨⟨hbase, hsort⟩, hpureC⟩ := hpure
        have hbase2 : base = none := Option.isNone_iff_eq_none.mp hbase
        subst hbase2
        rw [show hasConflict (.MemTree none p1 p2 changes) = hasConflictChanges changes
          from rfl] at hc
        have hmem : ∀ x ∈ applyChanges changes [], pureOk x.2 = true := by
          intro x hx
          rcases applyChanges_mem changes [] x hx with h | h
          · cases h
          · exact pureOkChanges_mem changes x.1 x.2 hpureC h
        have hex : ∃ x ∈ applyChanges changes [], hasConflict x.2 = true := by
          obtain ⟨n, c, hmemc, hcc⟩ := hasConflictChanges_exists changes hc
          exact ⟨(n, c),
            applyChanges_mem_of_changes changes [] n c
              (keysSortedB_pairwise_ne changes hsort) hmemc, hcc⟩
        have hls : lsize (applyChanges changes []) ≤ f := by
          have h1 := lsize_applyChanges_le changes []
          rw [show esize (.MemTree none p1 p2 changes) = 4 + csize changes from rfl] at hsz
          rw [show lsize ([] : List (Name × Entry)) = 1 from rfl] at h1
          omega
        have hfail := ih.2 (applyChanges changes []) store path hmem hex hls
        have heq : save (f + 1) store (.MemTree none p1 p2 changes) path =
            match saveChildren f store (applyChanges changes []) path with
            | .error err => .error err
            | .ok (entries, store1) =>
              .ok (⟨path.getLast?,
                    hashBytes (serializeListing
                      (entries.map (fun q => (q.1, q.2.hash, q.2.etype)))), .tree⟩,
                   storeInsert store1
                     (hashBytes (serializeListing
                       (entries.map (fun q => (q.1, q.2.hash, q.2.etype)))))
                     (entries.map (fun q => (q.1, q.2.hash, q.2.etype)))) := rfl
        rw [heq]
        simp only [hfail]
    · intro l store path hmem hex hsz
      cases l with
      | nil =>
        obtain ⟨x, hx, _⟩ := hex
        cases hx
      | cons p rest =>
        obtain ⟨n, c⟩ := p
        rw [show lsize ((n, c) :: rest) = 1 + esize c + lsize rest from rfl] at hsz
        have hszc : esize c ≤ f := by have := lsize_pos rest; omega
        have hszr : lsize rest ≤ f := by have := esize_pos c; omega
        have hpc : pureOk c = true := hmem (n, c) (List.mem_cons_self _ _)
        have hmemr : ∀ x ∈ rest, pureOk x.2 = true :=
          fun x hx => hmem x (List.mem_cons_of_mem _ hx)
        obtain ⟨bc, hbc, hbcc⟩ := (isEmpty_pure f).1 c store hpc hszc
        have heq : saveChildren (f + 1) store ((n, c) :: rest) path =
            match isEmpty f store c with
            | .error err => .error err
            | .ok true => saveChildren f store rest path
            | .ok false =>
              match save f store c (path ++ [n]) with
              | .error err => .error err
              | .ok (b, store1) =>
                match saveChildren f store1 rest path with
                | .error err => .error err
                | .ok (bs, store2) => .ok ((n, b) :: bs, store2) := rfl
        by_cases hcc : hasConflict c = true
        · have hbf : bc = false := hbcc hcc
          subst hbf
          have hfailc := ih.1 c store (path ++ [n]) hpc hcc hszc
          rw [heq]
          simp only [hbc, hfailc]
        · have hccf : hasConflict c = false := by
            revert hcc
            cases hasConflict c <;> simp
          have hrestex : ∃ x ∈ rest, hasConflict x.2 = true := by
            obtain ⟨x, hx, hcx⟩ := hex
            rcases List.mem_cons.mp hx with h | h
            · exact absurd (by rw [show x.2 = c from congrArg Prod.snd h] at hcx; exact hcx)
                hcc
            · exact ⟨x, h, hcx⟩
          cases bc with
          | true =>
            have hfail := ih.2 rest store path hmemr hrestex hszr
            rw [heq]
            simp only [hbc]
            exact hfail
          | false =>
            obtain ⟨b1, store1, hsave, _⟩ :=
              (save_pure_ok f).1 c store (path ++ [n]) hpc hccf hszc
            have hfail := ih.2 rest store1 path hmemr hrestex hszr
            rw [heq]
            simp only [hbc, hsave, hfail]

/-! Claim C4: saving under unresolved conflicts, and partial saves. -/

/-- The conflict-free sibling of the partial-save scenario: a fresh directory
holding one file. -/
def cleanSubtree : Entry :=
  .MemTree none none none [([121], some (.Blob ⟨some [121], 8, .file⟩))]

/-- The root of the partial-save scenario: subtree `[97]` holds an unresolved
two-way conflict, subtree `[98]` is `cleanSubtree`. -/
def conflictRoot : Entry :=
  .MemTree none none none
    [([97], some (.MemTree none none none
        [([120], some (.Conflict
            [.Blob ⟨some [120], 1, .file⟩, .Blob ⟨some [120], 2, .file⟩]))])),
     ([98], some cleanSubtree)]

/-- C4: `save` of a `Conflict` entry fails with `UnresolvedConflicts`; `save` of a
pure tree containing a `Conflict` anywhere below it also fails with
`UnresolvedConflicts`; a conflict-free pure subtree saves successfully to a hash
that resolves in the resulting store; and on the concrete two-sibling scenario
the whole tree fails to save while the conflict-free sibling saves independently
to a valid hash. -/
theorem save_under_conflict :
    (∀ (cs : List Entry) (store : Store) (path : RPath) (fuel : Nat),
      save (fuel + 1) store (.Conflict cs) path = .error .UnresolvedConflicts) ∧
    (∀ (e : Entry) (store : Store) (path : RPath) (fuel : Nat),
      pureOk e = true → hasConflict e = true → esize e ≤ fuel →
      save fuel store e path = .error .UnresolvedConflicts) ∧
    (∀ (e : Entry) (store : Store) (path : RPath) (fuel : Nat),
      pureOk e = true → hasConflict e = false → esize e ≤ fuel →
      ∃ b store2, save fuel store e path = .ok (b, store2) ∧
        (isModified e = true → storeGet store2 b.hash ≠ none)) ∧
    save 9 [] conflictRoot [] = .error .UnresolvedConflicts ∧
    (save 9 [] cleanSubtree [[98]]).toOption.map (fun q => storeGet q.2 q.1.hash) =
      some (some [([121], 8, .file)]) := by
  refine ⟨fun cs store path fuel => rfl, ?_, ?_, rfl, rfl⟩
  · intro e store path fuel hpure hc hsz
    exact (save_pure_conflict_fails fuel).1 e store path hpure hc hsz
  · intro e store path fuel hpure hnc hsz
    exact (save_pure_ok fuel).1 e store path hpure hnc hsz

/-- C4 witness: the conflict-failure conjunct at a pure tree holding a conflict
one level down, and the success conjunct at `cleanSubtree`. -/
theorem save_under_conflict_witness :
    save 8 [] (.MemTree none none none [([5], some (.Conflict []))]) [] =
      .error .UnresolvedConflicts ∧
    (∃ b store2, save 8 [] cleanSubtree [] = .ok (b, store2) ∧
      (isModified cleanSubtree = true → storeGet store2 b.hash ≠ none)) :=
  ⟨save_under_conflict.2.1 (.MemTree none none none [([5], some (.Conflict []))])
      [] [] 8 (by decide) (by decide) (by decide),
   save_under_conflict.2.2.1 cleanSubtree [] [] 8 (by decide) (by decide) (by decide)⟩

/-! Claim C7: the serialized wire format and hash determinism of `save`. -/

/-- C7: `save` serializes a modified tree as the plain concatenation of one
encoded row per entry — name bytes, NUL, hex hash, type char, newline — with no
header, count or trailer; the listing a successful save writes is sorted
ascending by name and its content hash is exactly the hash of those serialized
bytes; and two different in-memory trees whose materialized children carry the
same (name, hash, type) rows serialize identically and are assigned the same
hash (demonstrated on a fresh tree versus a baseline-plus-shadowing-change
tree). -/
theorem save_wire_format :
    (∀ (l : Listing),
      serializeListing l =
        (l.map (fun q => q.1 ++ [0] ++ hexOfHash q.2.1 ++ [typeChar q.2.2] ++ [10])).flatten) ∧
    (∀ (fuel : Nat) (store : Store) (base p1 p2 : Option Hash)
        (changes : List (Name × Option Entry)) (path : RPath) (b : BlobInfo) (store' : Store),
      isModified (.MemTree base p1 p2 changes) = true →
      save fuel store (.MemTree base p1 p2 changes) path = .ok (b, store') →
      ∃ listing : Listing,
        storeGet store' b.hash = some listing ∧
        List.Pairwise (fun x y => nameLt x.1 y.1 = true) listing ∧
        b.hash = hashBytes (serializeListing listing)) ∧
    ((save 4 [(55, [([110], 3, .file)])]
        (.MemTree none none none [([110], some (.Blob ⟨some [110], 9, .file⟩))]) []).toOption.map
          (fun q => q.1.hash) =
      (save 4 [(55, [([110], 3, .file)])]
        (.MemTree (some 55) (some 55) none
          [([110], some (.Blob ⟨some [110], 9, .file⟩))]) []).toOption.map
          (fun q => q.1.hash) ∧
     ((save 4 [(55, [([110], 3, .file)])]
        (.MemTree none none none [([110], some (.Blob ⟨some [110], 9, .file⟩))]) []).toOption.map
          (fun q => q.1.hash)).isSome = true) := by
  refine ⟨?_, ?_, rfl, rfl⟩
  · intro l
    have := serializeListing_acc
      (fun q => q.1 ++ [0] ++ hexOfHash q.2.1 ++ [typeChar q.2.2] ++ [10])
      (fun q => rfl) l []
    simpa [serializeListing] using this
  · intro fuel store base p1 p2 changes path b store' hmod hsave
    cases fuel with
    | zero => simp [save] at hsave
    | succ fuel =>
      simp only [save, hmod, if_true] at hsave
      cases hgc : getNewChildren store (.MemTree base p1 p2 changes) with
      | error err => simp [hgc] at hsave
      | ok children =>
        simp only [hgc] at hsave
        cases hsc : saveChildren fuel store children path with
        | error err => simp [hsc] at hsave
        | ok r =>
          obtain ⟨entries, store1⟩ := r
          simp only [hsc, Except.ok.injEq, Prod.mk.injEq] at hsave
          obtain ⟨hb, hst⟩ := hsave
          refine ⟨entries.map (fun q => (q.1, q.2.hash, q.2.etype)), ?_, ?_, ?_⟩
          · rw [← hst, ← hb]
            simp [storeGet, storeInsert]
          · have hch := getNewChildren_pairwise store _ children hgc
            have hkeys : List.Pairwise (fun a b => nameLt a b = true)
                (children.map Prod.fst) := List.pairwise_map.mpr hch
            have hsub := saveChildren_keys_sublist children fuel store path entries store1 hsc
            have hekeys : List.Pairwise (fun a b => nameLt a b = true)
                (entries.map Prod.fst) := hkeys.sublist hsub
            have hent : List.Pairwise (fun p q => nameLt p.1 q.1 = true) entries :=
              List.pairwise_map.mp hekeys
            exact List.pairwise_map.mpr hent
          · rw [← hb]

/-- C7 witness: the sorted-and-content-addressed conclusion at a concrete save of
a fresh empty tree (modified because it has no baseline), whose empty byte
serialization hashes to 7. -/
theorem save_wire_format_witness :
    ∃ listing : Listing,
      storeGet [((7 : Hash), ([] : Listing))] (BlobInfo.mk none 7 EType.tree).hash =
        some listing ∧
      List.Pairwise (fun x y => nameLt x.1 y.1 = true) listing ∧
      (BlobInfo.mk none 7 EType.tree).hash = hashBytes (serializeListing listing) :=
  save_wire_format.2.1 2 [] none none none [] [] ⟨none, 7, .tree⟩ [(7, [])] rfl rfl

end MemoryManifest
